import Mathlib

/-!
Verification development for the yak-hole repository: a local RAG engine
with a React-Native / web chat client. The client layer (`app/services/api.ts`,
`app/screens/ChatScreen.tsx`, `web/src/App.js`) is embedded from the source;
the ingestion-and-retrieval core (chunker, vector index, retriever,
context assembler, stats) is specified but not present in the repository,
so those components are modelled from the specification and marked as such
in their doc comments.
-/

namespace YakHole

/-! ### Client data model, from `app/services/api.ts` -/

/-- Metadata of one retrieved source as the client reads it: the rendering
accesses `source.metadata.filename`, which may be absent (`metadata: any`). -/
structure SourceMeta where
  filename : Option String
  deriving DecidableEq, Repr

/-- One element of `ChatResponse.sources` from `api.ts`:
`{content, metadata, similarity}`. -/
structure ChatSource where
  content : String
  metadata : SourceMeta
  similarity : ℚ
  deriving DecidableEq, Repr

/-- The `ChatResponse` interface from `api.ts`: answer text, conversation id,
and the ordered source list. -/
structure ChatResponse where
  response : String
  conversation_id : String
  sources : List ChatSource
  deriving DecidableEq, Repr

/-- The `Conversation` interface from `api.ts`. -/
structure Conversation where
  id : String
  title : String
  created_at : String
  updated_at : String
  message_count : ℕ
  deriving DecidableEq, Repr

/-- One message of `ConversationDetail.messages` from `api.ts`. -/
structure ConvMessage where
  timestamp : String
  user_message : String
  bot_response : String
  sources : List ChatSource
  deriving DecidableEq, Repr

/-- The `ConversationDetail` interface from `api.ts`. -/
structure ConversationDetail where
  id : String
  title : String
  created_at : String
  updated_at : String
  messages : List ConvMessage
  deriving DecidableEq, Repr

/-- The `SystemStats` interface from `api.ts`: chunk count, distinct file
count, per-file-type counts, embedding model identifier, db path. -/
structure SystemStats where
  total_chunks : ℕ
  unique_files : ℕ
  file_types : List (String × ℕ)
  embedding_model : String
  vector_db_path : String
  deriving DecidableEq, Repr

/-- The `/ingest/status` payload of `ApiService.getIngestionStatus`. -/
structure IngestionStatus where
  status : String
  progress : ℚ
  message : String
  deriving DecidableEq, Repr

/-- The `/health` payload of `ApiService.checkHealth`. -/
structure HealthStatus where
  status : String
  service : String
  deriving DecidableEq, Repr

/-- A fetch response as the `ApiService` methods observe it: the `ok` flag,
the numeric status, and the parsed JSON body `response.json()`. -/
structure HttpResponse (α : Type) where
  ok : Bool
  status : ℕ
  json : α
  deriving DecidableEq, Repr

/-- The error message every `ApiService` method throws on `!response.ok`. -/
def httpErrorMsg (status : ℕ) : String :=
  "HTTP error! status: " ++ toString status

/-- `ApiService.sendMessage`: throw on `!ok`, else return the parsed body. -/
def apiSendMessage (resp : HttpResponse ChatResponse) : Except String ChatResponse :=
  if resp.ok then Except.ok resp.json else Except.error (httpErrorMsg resp.status)

/-- `ApiService.getConversations`. -/
def apiGetConversations (resp : HttpResponse (List Conversation)) :
    Except String (List Conversation) :=
  if resp.ok then Except.ok resp.json else Except.error (httpErrorMsg resp.status)

/-- `ApiService.getConversation`. -/
def apiGetConversation (resp : HttpResponse ConversationDetail) :
    Except String ConversationDetail :=
  if resp.ok then Except.ok resp.json else Except.error (httpErrorMsg resp.status)

/-- `ApiService.deleteConversation`: a void method, it returns unit on `ok`. -/
def apiDeleteConversation (resp : HttpResponse Unit) : Except String Unit :=
  if resp.ok then Except.ok resp.json else Except.error (httpErrorMsg resp.status)

/-- `ApiService.triggerIngestion`: a void method, it returns unit on `ok`. -/
def apiTriggerIngestion (resp : HttpResponse Unit) : Except String Unit :=
  if resp.ok then Except.ok resp.json else Except.error (httpErrorMsg resp.status)

/-- `ApiService.getIngestionStatus`. -/
def apiGetIngestionStatus (resp : HttpResponse IngestionStatus) :
    Except String IngestionStatus :=
  if resp.ok then Except.ok resp.json else Except.error (httpErrorMsg resp.status)

/-- `ApiService.getStats`. -/
def apiGetStats (resp : HttpResponse SystemStats) : Except String SystemStats :=
  if resp.ok then Except.ok resp.json else Except.error (httpErrorMsg resp.status)

/-- `ApiService.checkHealth`. -/
def apiCheckHealth (resp : HttpResponse HealthStatus) : Except String HealthStatus :=
  if resp.ok then Except.ok resp.json else Except.error (httpErrorMsg resp.status)

/-- A JSON value as it appears in a serialized request body. -/
inductive JsonVal where
  | str (s : String)
  | bool (b : Bool)
  deriving DecidableEq, Repr

/-- The `/ingest` request body built by `ApiService.triggerIngestion`:
`JSON.stringify({path, incremental})`.  `JSON.stringify` drops a key whose
value is `undefined`, so an omitted `path` is absent from the body. -/
def ingestBody (path : Option String) (incremental : Bool) : List (String × JsonVal) :=
  (match path with
   | some p => [("path", JsonVal.str p)]
   | none => []) ++ [("incremental", JsonVal.bool incremental)]

/-- A call to `triggerIngestion` that omits the `incremental` argument: the
TypeScript signature declares `incremental: boolean = true`, so the default
`true` is used and `path` is forwarded unchanged. -/
def ingestBodyDefault (path : Option String) : List (String × JsonVal) :=
  ingestBody path true

/-! ### ChatScreen, from `app/screens/ChatScreen.tsx` -/

/-- Whitespace trimming, as `String.prototype.trim()` behaves on the
whitespace characters Lean knows; the guard `!inputText.trim()` tests that
the trimmed text is empty. -/
def trimWs (s : String) : String :=
  String.mk (((s.toList.dropWhile Char.isWhitespace).reverse.dropWhile
    Char.isWhitespace).reverse)

/-- A chat message of the `ChatScreen` message list.  The `timestamp: Date`
field is real time and is not modelled; `id` is generated from `Date.now()`,
passed in here as the `now` argument of the send handler. -/
structure Message where
  id : String
  text : String
  isUser : Bool
  sources : Option (List ChatSource)
  deriving DecidableEq, Repr

/-- The user message `ChatScreen.sendMessage` appends before the call. -/
def mkUserMessage (now : ℕ) (text : String) : Message :=
  { id := toString now, text := text, isUser := true, sources := none }

/-- The bot message `ChatScreen.sendMessage` appends on a successful
response: its text is `response.response` and it carries `response.sources`. -/
def mkBotMessage (now : ℕ) (r : ChatResponse) : Message :=
  { id := toString (now + 1), text := r.response, isUser := false,
    sources := some r.sources }

/-- The snackbar text of the `catch` branch of `ChatScreen.sendMessage`. -/
def chatErrorText : String :=
  "Failed to send message. Make sure the backend is running."

/-- The `ChatScreen` component state: messages, input text, loading flag,
conversation id, snackbar. -/
structure ChatState where
  messages : List Message
  inputText : String
  isLoading : Bool
  conversationId : Option String
  snackbarVisible : Bool
  snackbarMessage : String
  deriving DecidableEq, Repr

/-- `ChatScreen.sendMessage`, one call: `now` stands for `Date.now()` and
`outcome` for the awaited result of `apiService.sendMessage` (`.error` when
it throws).  Returns the new state and whether an HTTP request was issued.
The guard `if (!inputText.trim() || isLoading) return;` comes first. -/
def chatSendMessage (st : ChatState) (now : ℕ) (outcome : Except String ChatResponse) :
    ChatState × Bool :=
  if trimWs st.inputText = "" ∨ st.isLoading = true then (st, false)
  else
    let userMsg := mkUserMessage now (trimWs st.inputText)
    let st1 := { st with messages := st.messages ++ [userMsg],
                         inputText := "", isLoading := true }
    match outcome with
    | Except.ok r =>
        ({ st1 with conversationId := some r.conversation_id,
                    messages := st1.messages ++ [mkBotMessage now r],
                    isLoading := false }, true)
    | Except.error _ =>
        ({ st1 with snackbarVisible := true,
                    snackbarMessage := chatErrorText,
                    isLoading := false }, true)

/-- `Math.round` on a rational: JavaScript rounds half toward positive
infinity. -/
def jsRound (q : ℚ) : ℤ := ⌊q + 1 / 2⌋

/-- The text of one source chip in `ChatScreen.renderMessage`:
`{source.metadata.filename || 'Unknown'} ({Math.round(source.similarity * 100)}%)`.
An absent filename and the empty string are both falsy in JavaScript. -/
def renderSourceChip (s : ChatSource) : String :=
  (match s.metadata.filename with
   | some f => if f = "" then "Unknown" else f
   | none => "Unknown") ++
  " (" ++ toString (jsRound (s.similarity * 100)) ++ "%)"

/-- What `ChatScreen.renderMessage` displays for one message: its text and
one chip per source (the sources block renders only when the list is
nonempty; an empty list yields no chips either way). -/
structure RenderedMessage where
  text : String
  chips : List String
  deriving DecidableEq, Repr

/-- `ChatScreen.renderMessage`. -/
def renderMessage (m : Message) : RenderedMessage :=
  { text := m.text,
    chips := (m.sources.getD []).map renderSourceChip }

/-! ### Web client, from `web/src/App.js` -/

/-- A message of the web client's list: `{type, content, sources?}`. -/
structure WebMessage where
  type : String
  content : String
  sources : Option (List ChatSource)
  deriving DecidableEq, Repr

/-- The error message content of the `catch` branch of `App.sendMessage`. -/
def webErrorText : String :=
  "Sorry, there was an error processing your message. Please make sure the backend is running and try again."

/-- The `App` component state of the web client. -/
structure WebState where
  messages : List WebMessage
  inputMessage : String
  loading : Bool
  currentConversation : Option String
  deriving DecidableEq, Repr

/-- `App.sendMessage` of the web client, one call; `outcome` is the result
of the axios POST (`.error` when it rejects).  The guard
`if (!inputMessage.trim() || loading) return;` comes first.  On success the
bot message carries `response.data.sources || []`; on error the appended
message has no sources field at all. -/
def webSendMessage (st : WebState) (outcome : Except String ChatResponse) :
    WebState × Bool :=
  if trimWs st.inputMessage = "" ∨ st.loading = true then (st, false)
  else
    let userMsg : WebMessage :=
      { type := "user", content := trimWs st.inputMessage, sources := none }
    let st1 := { st with messages := st.messages ++ [userMsg],
                         inputMessage := "", loading := true }
    match outcome with
    | Except.ok r =>
        let botMsg : WebMessage :=
          { type := "bot", content := r.response, sources := some r.sources }
        ({ st1 with messages := st1.messages ++ [botMsg],
                    currentConversation :=
                      if r.conversation_id = "" then st1.currentConversation
                      else some r.conversation_id,
                    loading := false }, true)
    | Except.error _ =>
        let errMsg : WebMessage :=
          { type := "bot", content := webErrorText, sources := none }
        ({ st1 with messages := st1.messages ++ [errMsg],
                    loading := false }, true)

/-! ### Vector index, modelled from the spec (absent from `src/`) -/

/-- Inner product of two vectors, componentwise over the common prefix. -/
def dotQ (a b : List ℚ) : ℚ := (List.zipWith (· * ·) a b).sum

/-- Modelled from the spec: a chunk ID is "derived from (source document
identity, chunk sequence index)", so it is the pair of the document path
and the sequence index. -/
abbrev ChunkId := String × ℕ

/-- Modelled from the spec: a Vector Index entry pairs a chunk ID with its
embedding vector and metadata (text, filename, file type); the repository
holds no Vector Index code. -/
structure IndexEntry where
  id : ChunkId
  vector : List ℚ
  text : String
  filename : String
  fileType : String
  deriving DecidableEq, Repr

/-- Ordering of chunk IDs used for deterministic tie-breaks: lexicographic
on (document path, sequence index). -/
def idLe (i j : ChunkId) : Prop := i.1 < j.1 ∨ (i.1 = j.1 ∧ i.2 ≤ j.2)

instance : DecidableRel idLe := fun i j => by
  unfold idLe; infer_instance

/-- Ranking of scored results: higher similarity first, ties broken by
chunk ID for determinism. -/
def rankRel (a b : ChunkId × ℚ) : Prop := b.2 < a.2 ∨ (a.2 = b.2 ∧ idLe a.1 b.1)

instance : DecidableRel rankRel := fun a b => by
  unfold rankRel; infer_instance

instance : IsTotal (ChunkId × ℚ) rankRel where
  total a b := by
    rcases lt_trichotomy a.2 b.2 with h | h | h
    · exact Or.inr (Or.inl h)
    · rcases lt_trichotomy a.1.1 b.1.1 with h1 | h1 | h1
      · exact Or.inl (Or.inr ⟨h, Or.inl h1⟩)
      · rcases le_total a.1.2 b.1.2 with h2 | h2
        · exact Or.inl (Or.inr ⟨h, Or.inr ⟨h1, h2⟩⟩)
        · exact Or.inr (Or.inr ⟨h.symm, Or.inr ⟨h1.symm, h2⟩⟩)
      · exact Or.inr (Or.inr ⟨h.symm, Or.inl h1⟩)
    · exact Or.inl (Or.inl h)

instance : IsTrans (ChunkId × ℚ) rankRel where
  trans a b c hab hbc := by
    rcases hab with h1 | ⟨h1, h1'⟩ <;> rcases hbc with h2 | ⟨h2, h2'⟩
    · exact Or.inl (h2.trans h1)
    · exact Or.inl (h2 ▸ h1)
    · exact Or.inl (by rw [h1]; exact h2)
    · refine Or.inr ⟨h1.trans h2, ?_⟩
      rcases h1' with h3 | ⟨h3, h3'⟩ <;> rcases h2' with h4 | ⟨h4, h4'⟩
      · exact Or.inl (h3.trans h4)
      · exact Or.inl (h4 ▸ h3)
      · exact Or.inl (by rw [h3]; exact h4)
      · exact Or.inr ⟨h3.trans h4, h3'.trans h4'⟩

/-- Modelled from the spec: `search(query_vector, k, filters?)` returns the
ranked sequence of (chunk ID, score) pairs, scored by the normalized inner
product (vectors are stored normalized, so this is cosine similarity),
sorted with ties broken by chunk ID, and truncated to at most `k` results. -/
def search (q : List ℚ) (k : ℕ) (idx : List IndexEntry) : List (ChunkId × ℚ) :=
  (List.insertionSort rankRel (idx.map (fun e => (e.id, dotQ q e.vector)))).take k

/-- Modelled from the spec: `retrieve(query_text, k)` embeds the query via
the Embedder (passed here as the function `embedq`) and searches the Vector
Index; it is a total function, so an empty index yields an empty result
rather than an error. -/
def retrieve (embedq : String → List ℚ) (q : String) (k : ℕ)
    (idx : List IndexEntry) : List (ChunkId × ℚ) :=
  search (embedq q) k idx

/-! ### Chunker and ingestion pipeline, modelled from the spec
(absent from `src/`) -/

/-- Modelled from the spec: the Chunker splits text into chunks of a target
size with a configurable overlap between consecutive chunks.  The spec's
design notes leave the sentence-boundary heuristics unspecified (an open
question), so the model uses the plain size/overlap character split. -/
structure ChunkConfig where
  chunkSize : ℕ
  overlap : ℕ
  deriving DecidableEq, Repr

/-- Worker of the chunker: emits windows of `size` characters advancing by
`step` characters; the fuel argument (instantiated with the text length)
only certifies termination. -/
def splitGo (size step : ℕ) : ℕ → List Char → List (List Char)
  | _, [] => []
  | 0, l => [l]
  | fuel + 1, l =>
      if l.length ≤ size then [l]
      else l.take size :: splitGo size step fuel (l.drop step)

/-- Modelled from the spec: `split(text, metadata)`, the pure and
deterministic chunking function; windows advance by `chunkSize - overlap`
characters, so consecutive chunks share `overlap` characters. -/
def split (cfg : ChunkConfig) (text : String) : List String :=
  (splitGo cfg.chunkSize (max 1 (cfg.chunkSize - cfg.overlap))
    text.toList.length text.toList).map (fun l => String.mk l)

/-- Modelled from the spec: a SourceDocument with its identity (path), raw
content, modification time and file type; extraction is the identity here
since the spec treats it as an external per-file-type collaborator. -/
structure Doc where
  path : String
  content : String
  mtime : ℕ
  fileType : String
  deriving DecidableEq, Repr

/-- Modelled from the spec: the fingerprint is a collision-free function of
the file content and modification time. -/
def fingerprint (d : Doc) : String × ℕ := (d.content, d.mtime)

/-- Modelled from the spec: the Vector Index entries produced for one
document: chunk IDs are (path, sequence index), vectors come from the
Embedder `embed`. -/
def entriesOf (cfg : ChunkConfig) (embed : String → List ℚ) (d : Doc) :
    List IndexEntry :=
  (split cfg d.content).enum.map (fun it =>
    { id := (d.path, it.1), vector := embed it.2, text := it.2,
      filename := d.path, fileType := d.fileType })

/-- Modelled from the spec: `upsert` of a single entry — replace the entry
with the same chunk ID when present, insert otherwise. -/
def upsertOne (e : IndexEntry) (idx : List IndexEntry) : List IndexEntry :=
  if idx.any (fun x => x.id = e.id) then
    idx.map (fun x => if x.id = e.id then e else x)
  else idx ++ [e]

/-- Modelled from the spec: `upsert(entries)` over a batch. -/
def upsert (es : List IndexEntry) (idx : List IndexEntry) : List IndexEntry :=
  es.foldl (fun acc e => upsertOne e acc) idx

/-- Modelled from the spec: `delete_by_document(document_id)` removes all
entries whose chunk ID belongs to the given path. -/
def deleteByDoc (p : String) (idx : List IndexEntry) : List IndexEntry :=
  idx.filter (fun e => e.id.1 ≠ p)

/-- The index entry stored under a chunk ID, if any. -/
def lookupEntry (idx : List IndexEntry) (i : ChunkId) : Option IndexEntry :=
  idx.find? (fun x => x.id = i)

/-- Modelled from the spec: the Document Tracker's fingerprint table,
keyed by path. -/
def lookupFp (tr : List (String × (String × ℕ))) (p : String) :
    Option (String × ℕ) :=
  (tr.find? (fun e => e.1 = p)).map Prod.snd

/-- Update the tracker's fingerprint for one path. -/
def setFp (tr : List (String × (String × ℕ))) (p : String) (fp : String × ℕ) :
    List (String × (String × ℕ)) :=
  (p, fp) :: tr.filter (fun e => e.1 ≠ p)

/-- Modelled from the spec: the persistent state the ingestion pipeline and
the query path share — the tracker's fingerprint table and the Vector
Index. -/
structure RagState where
  tracker : List (String × (String × ℕ))
  index : List IndexEntry
  deriving DecidableEq, Repr

/-- One added/modified document processed by the pipeline: delete the old
chunk set for the path, upsert the freshly chunked and embedded entries,
update the tracker's fingerprint (spec steps 2–3 of the per-scan
algorithm). -/
def passStep (cfg : ChunkConfig) (embed : String → List ℚ)
    (s : RagState) (d : Doc) : RagState :=
  { tracker := setFp s.tracker d.path (fingerprint d),
    index := upsert (entriesOf cfg embed d) (deleteByDoc d.path s.index) }

/-- The scan's "removed" partition: paths tracked before the pass but
absent from the freshly walked document set. -/
def removedPaths (docs : List Doc) (tr : List (String × (String × ℕ))) :
    List String :=
  (tr.map Prod.fst).filter (fun p => ¬ docs.any (fun d => d.path = p))

/-- The tracker rows that survive the removal step of a pass. -/
def keepTracker (docs : List Doc) (tr : List (String × (String × ℕ))) :
    List (String × (String × ℕ)) :=
  tr.filter (fun e => docs.any (fun d => d.path = e.1))

/-- The scan's added-or-modified partition: documents whose fingerprint is
new or differs from the stored one. -/
def changedDocs (docs : List Doc) (tr : List (String × (String × ℕ))) :
    List Doc :=
  docs.filter (fun d => lookupFp tr d.path ≠ some (fingerprint d))

/-- Modelled from the spec: one incremental ingestion pass over the current
document set `docs`.  Removed documents (tracked but absent from the walk)
lose their tracker entries and index entries; every added or modified
document is processed by `passStep`. -/
def ingestPass (cfg : ChunkConfig) (embed : String → List ℚ)
    (docs : List Doc) (st : RagState) : RagState :=
  (changedDocs docs st.tracker).foldl (passStep cfg embed)
    ⟨keepTracker docs st.tracker,
     st.index.filter (fun en => ¬ (removedPaths docs st.tracker).contains en.id.1)⟩

/-- Configuration surfaced by the stats report. -/
structure StatsConfig where
  embeddingModel : String
  dbPath : String
  deriving DecidableEq, Repr

/-- Modelled from the spec: the maintenance stats report — index entry
count, distinct source-document count, per-file-type counts and the
embedding model identifier — shaped as the client's `SystemStats`. -/
def getStats (conf : StatsConfig) (idx : List IndexEntry) : SystemStats :=
  { total_chunks := idx.length,
    unique_files := ((idx.map (fun e => e.id.1)).dedup).length,
    file_types := ((idx.map (fun e => e.fileType)).dedup).map
      (fun t => (t, (idx.filter (fun e => e.fileType = t)).length)),
    embedding_model := conf.embeddingModel,
    vector_db_path := conf.dbPath }

/-! ### Context assembler, modelled from the spec (absent from `src/`) -/

/-- Modelled from the spec: one retrieved chunk as the Context Assembler
sees it — its text, source filename and similarity score, already in rank
order. -/
structure RChunk where
  text : String
  filename : String
  similarity : ℚ
  deriving DecidableEq, Repr

/-- Modelled from the spec: the chunks actually included in the prompt —
the longest rank-prefix of the retrieved chunks whose combined text length
fits the budget; a chunk that does not fit is dropped entirely together
with everything ranked below it. -/
def fitChunks (budget : ℕ) : List RChunk → List RChunk
  | [] => []
  | c :: cs =>
      if c.text.length ≤ budget then c :: fitChunks (budget - c.text.length) cs
      else []

/-- Combined text length of a chunk list. -/
def totalLen (cs : List RChunk) : ℕ := (cs.map (fun c => c.text.length)).sum

/-- One line per included chunk — its text preceded by a provenance
marker — followed by the closing part of the template. -/
def promptOf (cs : List RChunk) (close : String) : String :=
  cs.foldr (fun c acc => "[" ++ c.filename ++ "] " ++ c.text ++ "\n" ++ acc) close

/-- Modelled from the spec: `build_prompt` assembles the included chunks
with provenance markers in a fixed model-independent template around the
question. -/
def buildPrompt (question : String) (ranked : List RChunk) (budget : ℕ) : String :=
  "Context:\n" ++ promptOf (fitChunks budget ranked) ("\nQuestion: " ++ question)

/-- Modelled from the spec: `parse_response` returns the raw model output as
the answer text together with the deduplicated (filename, similarity) pairs
of the chunks actually included in the prompt. -/
def parseResponse (raw : String) (ranked : List RChunk) (budget : ℕ) :
    String × List (String × ℚ) :=
  (raw, ((fitChunks budget ranked).map (fun c => (c.filename, c.similarity))).dedup)

/-! ### Theorems -/

/-- Claim C10: a `triggerIngestion` call that omits the `incremental`
argument sends a body whose `incremental` field is `true`, and forwards the
optional `path` unchanged — present exactly when it was given. -/
theorem triggerIngestion_default_incremental (path : Option String) :
    (ingestBodyDefault path).lookup "incremental" = some (JsonVal.bool true) ∧
    (ingestBodyDefault path).lookup "path" = path.map JsonVal.str := by
  cases path <;> exact ⟨rfl, rfl⟩

/-- Claim C8: every `ApiService` method throws exactly when the HTTP
response has `ok = false` (with the `HTTP error! status:` message), and
otherwise returns the parsed JSON body. -/
theorem apiService_throws_iff_not_ok
    (r1 : HttpResponse ChatResponse) (r2 : HttpResponse (List Conversation))
    (r3 : HttpResponse ConversationDetail) (r4 : HttpResponse Unit)
    (r5 : HttpResponse Unit) (r6 : HttpResponse IngestionStatus)
    (r7 : HttpResponse SystemStats) (r8 : HttpResponse HealthStatus) :
    ((apiSendMessage r1).isOk = r1.ok ∧
      (r1.ok = true → apiSendMessage r1 = Except.ok r1.json) ∧
      (r1.ok = false → apiSendMessage r1 = Except.error (httpErrorMsg r1.status))) ∧
    ((apiGetConversations r2).isOk = r2.ok ∧
      (r2.ok = true → apiGetConversations r2 = Except.ok r2.json) ∧
      (r2.ok = false → apiGetConversations r2 = Except.error (httpErrorMsg r2.status))) ∧
    ((apiGetConversation r3).isOk = r3.ok ∧
      (r3.ok = true → apiGetConversation r3 = Except.ok r3.json) ∧
      (r3.ok = false → apiGetConversation r3 = Except.error (httpErrorMsg r3.status))) ∧
    ((apiDeleteConversation r4).isOk = r4.ok ∧
      (r4.ok = true → apiDeleteConversation r4 = Except.ok r4.json) ∧
      (r4.ok = false → apiDeleteConversation r4 = Except.error (httpErrorMsg r4.status))) ∧
    ((apiTriggerIngestion r5).isOk = r5.ok ∧
      (r5.ok = true → apiTriggerIngestion r5 = Except.ok r5.json) ∧
      (r5.ok = false → apiTriggerIngestion r5 = Except.error (httpErrorMsg r5.status))) ∧
    ((apiGetIngestionStatus r6).isOk = r6.ok ∧
      (r6.ok = true → apiGetIngestionStatus r6 = Except.ok r6.json) ∧
      (r6.ok = false → apiGetIngestionStatus r6 = Except.error (httpErrorMsg r6.status))) ∧
    ((apiGetStats r7).isOk = r7.ok ∧
      (r7.ok = true → apiGetStats r7 = Except.ok r7.json) ∧
      (r7.ok = false → apiGetStats r7 = Except.error (httpErrorMsg r7.status))) ∧
    ((apiCheckHealth r8).isOk = r8.ok ∧
      (r8.ok = true → apiCheckHealth r8 = Except.ok r8.json) ∧
      (r8.ok = false → apiCheckHealth r8 = Except.error (httpErrorMsg r8.status))) := by
  have key : ∀ {α : Type} (f : HttpResponse α → Except String α),
      (∀ r : HttpResponse α, f r =
        if r.ok then Except.ok r.json else Except.error (httpErrorMsg r.status)) →
      ∀ r : HttpResponse α, (f r).isOk = r.ok ∧
        (r.ok = true → f r = Except.ok r.json) ∧
        (r.ok = false → f r = Except.error (httpErrorMsg r.status)) := by
    intro α f hf r
    rcases r with ⟨ok, status, json⟩
    cases ok <;> simp [hf, Except.isOk, Except.toBool]
  exact ⟨key apiSendMessage (fun _ => rfl) r1,
    key apiGetConversations (fun _ => rfl) r2,
    key apiGetConversation (fun _ => rfl) r3,
    key apiDeleteConversation (fun _ => rfl) r4,
    key apiTriggerIngestion (fun _ => rfl) r5,
    key apiGetIngestionStatus (fun _ => rfl) r6,
    key apiGetStats (fun _ => rfl) r7,
    key apiCheckHealth (fun _ => rfl) r8⟩

/-- Witness for C8: a concrete ok-response is returned parsed, after the
`ok = true` hypothesis of the relevant conjunct is discharged. -/
theorem apiService_throws_iff_not_ok_witness :
    apiSendMessage ⟨true, 200, ⟨"answer", "c1", []⟩⟩ =
      Except.ok ⟨"answer", "c1", []⟩ :=
  (apiService_throws_iff_not_ok ⟨true, 200, ⟨"answer", "c1", []⟩⟩
    ⟨true, 200, []⟩ ⟨true, 200, ⟨"", "", "", "", []⟩⟩ ⟨true, 200, ()⟩
    ⟨true, 200, ()⟩ ⟨true, 200, ⟨"idle", 0, ""⟩⟩
    ⟨true, 200, ⟨0, 0, [], "", ""⟩⟩ ⟨true, 200, ⟨"ok", "svc"⟩⟩).1.2.1 rfl

/-- Claim C9: when the input is empty or whitespace-only, or a request is
already in flight, neither send handler issues a request and the state —
message list, conversation id, input text included — is unchanged. -/
theorem sendMessage_guard_no_request (st : ChatState) (now : ℕ)
    (o : Except String ChatResponse) (wst : WebState)
    (o2 : Except String ChatResponse)
    (h : trimWs st.inputText = "" ∨ st.isLoading = true)
    (h2 : trimWs wst.inputMessage = "" ∨ wst.loading = true) :
    chatSendMessage st now o = (st, false) ∧
    webSendMessage wst o2 = (wst, false) := by
  constructor
  · unfold chatSendMessage; rw [if_pos h]
  · unfold webSendMessage; rw [if_pos h2]

/-- Witness for C9: a whitespace-only input with no request in flight
leaves both clients untouched. -/
theorem sendMessage_guard_no_request_witness :
    chatSendMessage ⟨[], "  ", false, none, false, ""⟩ 3 (Except.error "down") =
      (⟨[], "  ", false, none, false, ""⟩, false) ∧
    webSendMessage ⟨[], " ", false, none⟩ (Except.error "down") =
      (⟨[], " ", false, none⟩, false) :=
  sendMessage_guard_no_request ⟨[], "  ", false, none, false, ""⟩ 3
    (Except.error "down") ⟨[], " ", false, none⟩ (Except.error "down")
    (Or.inl (by decide)) (Or.inl (by decide))

/-- Claim C6: retrieval against an empty index returns the empty result for
every query text and every `k`; `retrieve` is a total function, so no error
is raised. -/
theorem retrieve_empty_index (embedq : String → List ℚ) (q : String) (k : ℕ) :
    retrieve embedq q k [] = [] := by
  simp [retrieve, search]

/-- Claim C1, counterexample: a completion call fails (HTTP 500) after
retrieval returned one source (`notes.md`), yet neither client attaches any
source to what it displays — the web client's appended messages all carry
`none` for sources, and the app client only sets the bare fixed snackbar
text, its sole appended message carrying no sources either. -/
theorem error_branch_drops_sources_cx :
    (⟨false, 500, ⟨"", "conv1",
        [⟨"chunk text", ⟨some "notes.md"⟩, 9 / 10⟩]⟩⟩ :
      HttpResponse ChatResponse).json.sources ≠ [] ∧
    ((webSendMessage ⟨[], "hello", false, none⟩
        (apiSendMessage ⟨false, 500, ⟨"", "conv1",
          [⟨"chunk text", ⟨some "notes.md"⟩, 9 / 10⟩]⟩⟩)).1.messages.map
      (fun m => m.sources)) = [none, none] ∧
    (chatSendMessage ⟨[], "hello", false, none, false, ""⟩ 7
        (apiSendMessage ⟨false, 500, ⟨"", "conv1",
          [⟨"chunk text", ⟨some "notes.md"⟩, 9 / 10⟩]⟩⟩)).1.snackbarMessage =
      chatErrorText ∧
    ((chatSendMessage ⟨[], "hello", false, none, false, ""⟩ 7
        (apiSendMessage ⟨false, 500, ⟨"", "conv1",
          [⟨"chunk text", ⟨some "notes.md"⟩, 9 / 10⟩]⟩⟩)).1.messages.map
      (fun m => m.sources)) = [none] := by
  refine ⟨by decide, rfl, rfl, rfl⟩

/-- Claim C1, amended: when the completion call fails, both clients display
a bare fixed error message and attach no retrieved sources to it — the app
client sets the snackbar text and appends only the user's message, the web
client appends an error message whose sources field is `none`. -/
theorem error_branch_bare_message (st : ChatState) (now : ℕ) (e : String)
    (wst : WebState) (e2 : String)
    (h : ¬ (trimWs st.inputText = "" ∨ st.isLoading = true))
    (h2 : ¬ (trimWs wst.inputMessage = "" ∨ wst.loading = true)) :
    chatSendMessage st now (Except.error e) =
      ({ st with
          messages := st.messages ++ [mkUserMessage now (trimWs st.inputText)],
          inputText := "",
          isLoading := false,
          snackbarVisible := true,
          snackbarMessage := chatErrorText }, true) ∧
    webSendMessage wst (Except.error e2) =
      ({ wst with
          messages := wst.messages ++
            [⟨"user", trimWs wst.inputMessage, none⟩, ⟨"bot", webErrorText, none⟩],
          inputMessage := "",
          loading := false }, true) := by
  constructor
  · unfold chatSendMessage; rw [if_neg h]
  · unfold webSendMessage; rw [if_neg h2]; simp

/-- Witness for the amended C1: a concrete failed turn from an idle state
with nonblank input. -/
theorem error_branch_bare_message_witness :
    chatSendMessage ⟨[], "hi", false, none, false, ""⟩ 4 (Except.error "boom") =
      (⟨[mkUserMessage 4 "hi"], "", false, none, true, chatErrorText⟩, true) ∧
    webSendMessage ⟨[], "hi", false, none⟩ (Except.error "boom") =
      (⟨[⟨"user", "hi", none⟩, ⟨"bot", webErrorText, none⟩], "", false, none⟩, true) := by
  have h := error_branch_bare_message ⟨[], "hi", false, none, false, ""⟩ 4 "boom"
    ⟨[], "hi", false, none⟩ "boom" (by decide) (by decide)
  simpa using h

/-- Claim C2: a successful query yields the structured answer — the bot
message appended by the client carries the answer text and the ordered
source list of the response, the conversation id is stored, rendering
produces one chip per source in order, and each chip displays the source's
filename together with its rounded similarity. -/
theorem query_response_shape (st : ChatState) (now : ℕ) (r : ChatResponse)
    (h : ¬ (trimWs st.inputText = "" ∨ st.isLoading = true)) :
    chatSendMessage st now (Except.ok r) =
      ({ st with
          messages := st.messages ++
            [mkUserMessage now (trimWs st.inputText), mkBotMessage now r],
          inputText := "",
          isLoading := false,
          conversationId := some r.conversation_id }, true) ∧
    (mkBotMessage now r).text = r.response ∧
    (mkBotMessage now r).sources = some r.sources ∧
    (renderMessage (mkBotMessage now r)).chips = r.sources.map renderSourceChip ∧
    ∀ s : ChatSource, ∀ f : String, s.metadata.filename = some f → f ≠ "" →
      renderSourceChip s =
        f ++ " (" ++ toString (jsRound (s.similarity * 100)) ++ "%)" := by
  refine ⟨?_, rfl, rfl, ?_, ?_⟩
  · unfold chatSendMessage; rw [if_neg h]; simp
  · simp [renderMessage, mkBotMessage]
  · intro s f hf hne
    simp [renderSourceChip, hf, hne]

/-- Witness for C2: a concrete successful turn with one source. -/
theorem query_response_shape_witness :
    chatSendMessage ⟨[], "q", false, none, false, ""⟩ 9
        (Except.ok ⟨"the answer", "c7", [⟨"txt", ⟨some "a.md"⟩, 1 / 2⟩]⟩) =
      (⟨[mkUserMessage 9 "q",
          mkBotMessage 9 ⟨"the answer", "c7", [⟨"txt", ⟨some "a.md"⟩, 1 / 2⟩]⟩],
        "", false, some "c7", false, ""⟩, true) ∧
    renderSourceChip ⟨"txt", ⟨some "a.md"⟩, 1 / 2⟩ = "a.md (50%)" := by
  have h := query_response_shape ⟨[], "q", false, none, false, ""⟩ 9
    ⟨"the answer", "c7", [⟨"txt", ⟨some "a.md"⟩, 1 / 2⟩]⟩ (by decide)
  refine ⟨by simpa using h.1, ?_⟩
  have h5 := h.2.2.2.2 ⟨"txt", ⟨some "a.md"⟩, 1 / 2⟩ "a.md" rfl (by decide)
  rw [h5]
  have hr : jsRound ((1 : ℚ) / 2 * 100) = 50 := by unfold jsRound; norm_num
  have ht : toString (jsRound ((1 : ℚ) / 2 * 100)) = "50" := by rw [hr]; decide
  rw [ht]
  decide

/-- The included chunks are a rank-prefix of the retrieved chunks: nothing
is cut mid-text, only whole low-ranked chunks are dropped. -/
theorem fitChunks_initial (budget : ℕ) (cs : List RChunk) :
    ∃ rest, fitChunks budget cs ++ rest = cs := by
  induction cs generalizing budget with
  | nil => exact ⟨[], rfl⟩
  | cons c cs ih =>
      by_cases h : c.text.length ≤ budget
      · obtain ⟨rest, hrest⟩ := ih (budget - c.text.length)
        exact ⟨rest, by simp [fitChunks, h, hrest]⟩
      · exact ⟨c :: cs, by simp [fitChunks, h]⟩

/-- The combined length of the included chunks fits the budget. -/
theorem fitChunks_totalLen (budget : ℕ) (cs : List RChunk) :
    totalLen (fitChunks budget cs) ≤ budget := by
  induction cs generalizing budget with
  | nil => simp [fitChunks, totalLen]
  | cons c cs ih =>
      by_cases h : c.text.length ≤ budget
      · have := ih (budget - c.text.length)
        simp only [fitChunks, if_pos h, totalLen, List.map_cons, List.sum_cons] at *
        omega
      · simp [fitChunks, h, totalLen]

/-- Maximality: the first omitted chunk would not have fit. -/
theorem fitChunks_maximal (budget : ℕ) (cs : List RChunk) :
    ∀ c rest, fitChunks budget cs ++ (c :: rest) = cs →
      budget < totalLen (fitChunks budget cs) + c.text.length := by
  induction cs generalizing budget with
  | nil =>
      intro c rest h
      exact absurd h (by simp [fitChunks])
  | cons d cs ih =>
      intro c rest h
      by_cases hd : d.text.length ≤ budget
      · simp only [fitChunks, if_pos hd, List.cons_append, List.cons.injEq] at h
        have := ih (budget - d.text.length) c rest h.2
        simp only [fitChunks, if_pos hd, totalLen, List.map_cons, List.sum_cons] at *
        omega
      · simp only [fitChunks, if_neg hd, List.nil_append, List.cons.injEq] at h
        have : c = d := h.1
        simp only [fitChunks, if_neg hd, totalLen, List.map_nil, List.sum_nil, this]
        omega

/-- Every chunk of the list appears whole — as a contiguous character
run — inside the assembled text. -/
theorem promptOf_contains (cs : List RChunk) (close : String) :
    ∀ c ∈ cs, ∃ s t, s ++ c.text.data ++ t = (promptOf cs close).data := by
  induction cs with
  | nil => intro c hc; exact absurd hc (List.not_mem_nil c)
  | cons d cs ih =>
      intro c hc
      rcases List.mem_cons.mp hc with h | h
      · subst h
        refine ⟨("[" ++ c.filename ++ "] ").data, ("\n" ++ promptOf cs close).data, ?_⟩
        show _ = ("[" ++ c.filename ++ "] " ++ c.text ++ "\n" ++ promptOf cs close).data
        simp [String.data]
      · obtain ⟨s, t, hst⟩ := ih c h
        refine ⟨("[" ++ d.filename ++ "] " ++ d.text ++ "\n").data ++ s, t, ?_⟩
        show _ = (("[" ++ d.filename ++ "] " ++ d.text ++ "\n") ++ promptOf cs close).data
        rw [List.append_assoc, List.append_assoc, ← List.append_assoc s]
        rw [hst]
        simp [String.data]

/-- Claim C5: when the retrieved chunks exceed the prompt budget, the
assembled prompt keeps a maximal rank-prefix of whole chunks — the included
list is a prefix of the ranking, fits the budget, necessarily omits
something, the first omitted chunk would not have fit, and every included
chunk's text appears whole (never cut) inside the built prompt — and the
parsed answer's source list is deduplicated, drawn exactly from the
included chunks: every listed pair comes from an included chunk and every
included chunk's pair is listed, so omitted chunks are never cited. -/
theorem prompt_truncation_sources (raw question : String) (ranked : List RChunk)
    (budget : ℕ) (hover : budget < totalLen ranked) :
    (∃ rest, fitChunks budget ranked ++ rest = ranked) ∧
    totalLen (fitChunks budget ranked) ≤ budget ∧
    fitChunks budget ranked ≠ ranked ∧
    (∀ c rest, fitChunks budget ranked ++ (c :: rest) = ranked →
      budget < totalLen (fitChunks budget ranked) + c.text.length) ∧
    (∀ c ∈ fitChunks budget ranked,
      ∃ s t, s ++ c.text.data ++ t = (buildPrompt question ranked budget).data) ∧
    (∀ p ∈ (parseResponse raw ranked budget).2,
      ∃ c ∈ fitChunks budget ranked, (c.filename, c.similarity) = p) ∧
    (∀ c ∈ fitChunks budget ranked,
      (c.filename, c.similarity) ∈ (parseResponse raw ranked budget).2) ∧
    (parseResponse raw ranked budget).2.Nodup ∧
    (parseResponse raw ranked budget).1 = raw := by
  refine ⟨fitChunks_initial budget ranked, fitChunks_totalLen budget ranked,
    ?_, fitChunks_maximal budget ranked, ?_, ?_, ?_, ?_, rfl⟩
  · intro hEq
    have := fitChunks_totalLen budget ranked
    rw [hEq] at this
    omega
  · intro c hc
    obtain ⟨s, t, hst⟩ := promptOf_contains (fitChunks budget ranked)
      ("\nQuestion: " ++ question) c hc
    refine ⟨("Context:\n").data ++ s, t, ?_⟩
    show _ = ("Context:\n" ++ promptOf (fitChunks budget ranked)
      ("\nQuestion: " ++ question)).data
    rw [List.append_assoc, List.append_assoc, ← List.append_assoc s, hst]
    simp [String.data]
  · intro p hp
    rw [parseResponse] at hp
    simp only [List.mem_dedup, List.mem_map] at hp
    obtain ⟨c, hc, hcp⟩ := hp
    exact ⟨c, hc, hcp⟩
  · intro c hc
    rw [parseResponse]
    simp only [List.mem_dedup, List.mem_map]
    exact ⟨c, hc, rfl⟩
  · rw [parseResponse]
    exact List.nodup_dedup _

/-- Witness for C5: two ranked chunks of combined length 7 against budget
5 — only the first is included and cited. -/
theorem prompt_truncation_sources_witness :
    fitChunks 5 [⟨"abc", "a.md", 1⟩, ⟨"defg", "b.md", 1 / 2⟩] ≠
      [⟨"abc", "a.md", 1⟩, ⟨"defg", "b.md", 1 / 2⟩] ∧
    (parseResponse "ans" [⟨"abc", "a.md", 1⟩, ⟨"defg", "b.md", 1 / 2⟩] 5).2.Nodup :=
  ⟨(prompt_truncation_sources "ans" "q"
      [⟨"abc", "a.md", 1⟩, ⟨"defg", "b.md", 1 / 2⟩] 5 (by decide)).2.2.1,
   (prompt_truncation_sources "ans" "q"
      [⟨"abc", "a.md", 1⟩, ⟨"defg", "b.md", 1 / 2⟩] 5 (by decide)).2.2.2.2.2.2.2.1⟩

/-- Polarization: for same-length vectors the self inner products and the
inner product of the difference determine the cross inner product. -/
theorem dotQ_self_add (a b : List ℚ) (h : a.length = b.length) :
    dotQ a a + dotQ b b =
      2 * dotQ a b + dotQ (List.zipWith (· - ·) a b) (List.zipWith (· - ·) a b) := by
  induction a generalizing b with
  | nil =>
      cases b with
      | nil => simp [dotQ]
      | cons y b => exact absurd h (by simp)
  | cons x a iha =>
      cases b with
      | nil => exact absurd h (by simp)
      | cons y b =>
          have ih := iha b (by simpa using h)
          simp only [dotQ, List.zipWith_cons_cons, List.sum_cons] at *
          linear_combination ih

/-- The self inner product of a rational vector is nonnegative. -/
theorem dotQ_self_nonneg (a : List ℚ) : 0 ≤ dotQ a a := by
  induction a with
  | nil => simp [dotQ]
  | cons x a ih =>
      simp only [dotQ, List.zipWith_cons_cons, List.sum_cons] at *
      nlinarith [mul_self_nonneg x]

/-- Same-length vectors whose difference has zero self inner product are
equal. -/
theorem eq_of_dotQ_sub_zero (a b : List ℚ) (h : a.length = b.length)
    (h0 : dotQ (List.zipWith (· - ·) a b) (List.zipWith (· - ·) a b) = 0) :
    a = b := by
  induction a generalizing b with
  | nil =>
      cases b with
      | nil => rfl
      | cons y b => exact absurd h (by simp)
  | cons x a iha =>
      cases b with
      | nil => exact absurd h (by simp)
      | cons y b =>
          simp only [List.zipWith_cons_cons, dotQ, List.sum_cons] at h0
          have hx : 0 ≤ (x - y) * (x - y) := mul_self_nonneg _
          have hr : 0 ≤ dotQ (List.zipWith (· - ·) a b) (List.zipWith (· - ·) a b) :=
            dotQ_self_nonneg _
          have hxy : (x - y) * (x - y) = 0 := by

            have : dotQ (List.zipWith (· - ·) a b) (List.zipWith (· - ·) a b) =
              (List.zipWith (· * ·) (List.zipWith (· - ·) a b)
                (List.zipWith (· - ·) a b)).sum := rfl
            nlinarith [hr]
          have h1 : x = y := by
            have := mul_self_eq_zero.mp hxy
            linarith
          have h2 : a = b := by
            apply iha b (by simpa using h)
            have : dotQ (List.zipWith (· - ·) a b) (List.zipWith (· - ·) a b) =
              (List.zipWith (· * ·) (List.zipWith (· - ·) a b)
                (List.zipWith (· - ·) a b)).sum := rfl
            nlinarith [hx]
          rw [h1, h2]

/-- Strict Cauchy–Schwarz at the top: two distinct unit vectors of the
same length have inner product strictly below one. -/
theorem dotQ_lt_one (a b : List ℚ) (h : a.length = b.length)
    (ha : dotQ a a = 1) (hb : dotQ b b = 1) (hne : a ≠ b) : dotQ a b < 1 := by
  have hpol := dotQ_self_add a b h
  have hnn := dotQ_self_nonneg (List.zipWith (· - ·) a b)
  rcases eq_or_lt_of_le hnn with h0 | h0
  · exact absurd (eq_of_dotQ_sub_zero a b h h0.symm) hne
  · rw [ha, hb] at hpol
    linarith

/-- Claim C3: for every query vector and every `k`, `search` returns a
deterministically ranked sequence — sorted by similarity with ties broken
by chunk ID — whose length is `k` capped by the number of live entries;
and, in particular, a query equal to one indexed chunk's vector (unique in
the index, all vectors unit, `k ≥ 1`) returns that chunk first with
similarity exactly 1. -/
theorem search_ranking_and_exact_match (idx : List IndexEntry) (q : List ℚ)
    (k : ℕ) :
    (search q k idx).length = min k idx.length ∧
    List.Sorted rankRel (search q k idx) ∧
    (∀ e : IndexEntry, e ∈ idx → e.vector = q → dotQ q q = 1 →
      (∀ x ∈ idx, dotQ x.vector x.vector = 1) →
      (∀ x ∈ idx, x.vector.length = q.length) →
      (∀ x ∈ idx, x ≠ e → x.vector ≠ q) →
      1 ≤ k →
      (search q k idx).head? = some (e.id, 1)) := by
  have hsort : List.Sorted rankRel
      (List.insertionSort rankRel (idx.map (fun x => (x.id, dotQ q x.vector)))) :=
    List.sorted_insertionSort rankRel _
  have hperm : List.Perm
      (List.insertionSort rankRel (idx.map (fun x => (x.id, dotQ q x.vector))))
      (idx.map (fun x => (x.id, dotQ q x.vector))) :=
    List.perm_insertionSort rankRel _
  refine ⟨?_, ?_, ?_⟩
  · rw [search, List.length_take, hperm.length_eq, List.length_map]
  · exact List.Pairwise.sublist (List.take_sublist k _) hsort
  · intro e he heq hq hunit hlen huniq hk
    have hmem : (e.id, (1 : ℚ)) ∈
        List.insertionSort rankRel (idx.map (fun x => (x.id, dotQ q x.vector))) := by
      rw [hperm.mem_iff]
      have h1 : (e.id, dotQ q e.vector) ∈ idx.map (fun x => (x.id, dotQ q x.vector)) :=
        List.mem_map_of_mem _ he
      rwa [heq, hq] at h1
    obtain ⟨h0, t, hst⟩ : ∃ h0 t,
        List.insertionSort rankRel (idx.map (fun x => (x.id, dotQ q x.vector))) =
          h0 :: t := by
      cases hcs : List.insertionSort rankRel (idx.map (fun x => (x.id, dotQ q x.vector))) with
      | nil => rw [hcs] at hmem; exact absurd hmem (List.not_mem_nil _)
      | cons a t => exact ⟨a, t, rfl⟩
    have hh0 : h0 ∈ idx.map (fun x => (x.id, dotQ q x.vector)) := by
      rw [← hperm.mem_iff, hst]; exact List.mem_cons_self _ _
    obtain ⟨x, hx, hx0⟩ := List.mem_map.mp hh0
    have hhead : h0 = (e.id, 1) := by
      by_cases hxe : x = e
      · rw [← hx0, hxe, heq, hq]
      · exfalso
        have hlt : dotQ q x.vector < 1 := by
          refine dotQ_lt_one q x.vector (hlen x hx).symm hq (hunit x hx) ?_
          intro hvq
          exact huniq x hx hxe hvq.symm
        have hmt : (e.id, (1 : ℚ)) ∈ t := by
          have := hst ▸ hmem
          rcases List.mem_cons.mp this with h1 | h1
          · rw [← hx0] at h1
            have h2 : dotQ q x.vector = 1 := congrArg Prod.snd h1.symm
            linarith
          · exact h1
        have hrel : rankRel h0 (e.id, 1) := by
          have := hst ▸ hsort
          exact List.rel_of_sorted_cons this _ hmt
        have hsnd : h0.2 = dotQ q x.vector := by rw [← hx0]
        rcases hrel with h1 | ⟨h1, _⟩
        · have h2 : (1 : ℚ) < h0.2 := h1
          rw [hsnd] at h2; linarith
        · rw [hsnd] at h1
          have h2 : dotQ q x.vector = 1 := h1
          linarith
    rw [search, hst, hhead]
    cases k with
    | zero => omega
    | succ k => simp

/-- Witness for C3: a two-entry index of unit vectors, queried with the
first entry's vector. -/
theorem search_ranking_and_exact_match_witness :
    (search [1, 0] 2
      [⟨("a.md", 0), [1, 0], "t0", "a.md", "md"⟩,
       ⟨("b.md", 0), [0, 1], "t1", "b.md", "md"⟩]).length = min 2 2 ∧
    List.Sorted rankRel (search [1, 0] 2
      [⟨("a.md", 0), [1, 0], "t0", "a.md", "md"⟩,
       ⟨("b.md", 0), [0, 1], "t1", "b.md", "md"⟩]) ∧
    (search [1, 0] 2
      [⟨("a.md", 0), [1, 0], "t0", "a.md", "md"⟩,
       ⟨("b.md", 0), [0, 1], "t1", "b.md", "md"⟩]).head? = some (("a.md", 0), 1) :=
  ⟨(search_ranking_and_exact_match
      [⟨("a.md", 0), [1, 0], "t0", "a.md", "md"⟩,
       ⟨("b.md", 0), [0, 1], "t1", "b.md", "md"⟩] [1, 0] 2).1,
   (search_ranking_and_exact_match
      [⟨("a.md", 0), [1, 0], "t0", "a.md", "md"⟩,
       ⟨("b.md", 0), [0, 1], "t1", "b.md", "md"⟩] [1, 0] 2).2.1,
   (search_ranking_and_exact_match
      [⟨("a.md", 0), [1, 0], "t0", "a.md", "md"⟩,
       ⟨("b.md", 0), [0, 1], "t1", "b.md", "md"⟩] [1, 0] 2).2.2
     ⟨("a.md", 0), [1, 0], "t0", "a.md", "md"⟩ (List.mem_cons_self _ _) rfl
     (by simp [dotQ]) (by simp [dotQ]) (by simp) (by decide) (by decide)⟩

/-- Replacing the entry with `e`'s chunk ID leaves the ID list unchanged. -/
theorem upsertOne_ids_of_any (e : IndexEntry) (idx : List IndexEntry)
    (h : idx.any (fun x => x.id = e.id) = true) :
    (upsertOne e idx).map (fun x => x.id) = idx.map (fun x => x.id) := by
  rw [upsertOne, if_pos h, List.map_map]
  apply List.map_congr_left
  intro x hx
  by_cases hxe : x.id = e.id
  · simp [Function.comp, hxe]
  · simp [Function.comp, hxe]

/-- `upsert` of one entry preserves distinctness of chunk IDs. -/
theorem upsertOne_nodup (e : IndexEntry) (idx : List IndexEntry)
    (h : (idx.map (fun x => x.id)).Nodup) :
    ((upsertOne e idx).map (fun x => x.id)).Nodup := by
  by_cases hany : idx.any (fun x => x.id = e.id) = true
  · rw [upsertOne_ids_of_any e idx hany]; exact h
  · rw [upsertOne, if_neg hany, List.map_append]
    rw [List.nodup_append]
    refine ⟨h, by simp, ?_⟩
    intro a ha hb
    simp only [List.map_cons, List.map_nil, List.mem_singleton] at hb
    subst hb
    obtain ⟨x, hx, hxa⟩ := List.mem_map.mp ha
    exact hany (List.any_eq_true.mpr ⟨x, hx, by simp [hxa]⟩)

/-- Looking up `e`'s chunk ID after the replacement pass finds `e` exactly
when some entry carried that ID. -/
theorem find?_replace_same (e : IndexEntry) (idx : List IndexEntry) :
    List.find? (fun x => x.id = e.id) (idx.map (fun x => if x.id = e.id then e else x)) =
      if idx.any (fun x => x.id = e.id) then some e else none := by
  induction idx with
  | nil => rfl
  | cons x l ih =>
      by_cases hx : x.id = e.id
      · rw [List.map_cons, if_pos hx, List.find?_cons_of_pos _ (by simp)]
        rw [List.any_cons]
        simp [hx]
      · rw [List.map_cons, if_neg hx, List.find?_cons_of_neg _ (by simp [hx]), ih,
          List.any_cons]
        simp [hx]

/-- Lookups at other chunk IDs are unchanged by the replacement pass. -/
theorem find?_replace_other (e : IndexEntry) (i : ChunkId) (idx : List IndexEntry)
    (hne : i ≠ e.id) :
    List.find? (fun x => x.id = i) (idx.map (fun x => if x.id = e.id then e else x)) =
      List.find? (fun x => x.id = i) idx := by
  induction idx with
  | nil => rfl
  | cons x l ih =>
      by_cases hx : x.id = e.id
      · have hei : ¬ e.id = i := fun h => hne h.symm
        have hxi : ¬ x.id = i := fun h => hne (h ▸ hx)
        rw [List.map_cons, if_pos hx, List.find?_cons_of_neg _ (by simp [hei]),
          List.find?_cons_of_neg _ (by simp [hxi]), ih]
      · rw [List.map_cons, if_neg hx]
        by_cases hxi : x.id = i
        · rw [List.find?_cons_of_pos _ (by simp [hxi]),
            List.find?_cons_of_pos _ (by simp [hxi])]
        · rw [List.find?_cons_of_neg _ (by simp [hxi]),
            List.find?_cons_of_neg _ (by simp [hxi]), ih]

/-- After upserting `e`, its chunk ID maps to `e`. -/
theorem lookupEntry_upsertOne_same (e : IndexEntry) (idx : List IndexEntry) :
    lookupEntry (upsertOne e idx) e.id = some e := by
  rw [lookupEntry, upsertOne]
  by_cases hany : idx.any (fun x => x.id = e.id) = true
  · rw [if_pos hany, find?_replace_same, if_pos hany]
  · rw [if_neg hany, List.find?_append]
    have h1 : List.find? (fun x => x.id = e.id) idx = none := by
      rw [List.find?_eq_none]
      intro x hx
      simp only [decide_eq_true_eq]
      intro hxe
      exact hany (List.any_eq_true.mpr ⟨x, hx, by simp [hxe]⟩)
    rw [h1]
    simp [List.find?]

/-- Upserting `e` does not disturb lookups at other chunk IDs. -/
theorem lookupEntry_upsertOne_other (e : IndexEntry) (idx : List IndexEntry)
    (i : ChunkId) (hne : i ≠ e.id) :
    lookupEntry (upsertOne e idx) i = lookupEntry idx i := by
  rw [lookupEntry, lookupEntry, upsertOne]
  by_cases hany : idx.any (fun x => x.id = e.id) = true
  · rw [if_pos hany, find?_replace_other e i idx hne]
  · rw [if_neg hany, List.find?_append]
    have h2 : List.find? (fun x => x.id = i) [e] = none := by
      have : ¬ e.id = i := fun h => hne h.symm
      simp [List.find?, this]
    rw [h2]
    cases hf : List.find? (fun x => x.id = i) idx <;> simp [Option.or]

/-- A batch upsert of entries with foreign chunk IDs does not disturb a
lookup. -/
theorem lookupEntry_upsert_not_mem (es : List IndexEntry) (idx : List IndexEntry)
    (i : ChunkId) (h : ∀ e ∈ es, i ≠ e.id) :
    lookupEntry (upsert es idx) i = lookupEntry idx i := by
  induction es generalizing idx with
  | nil => rfl
  | cons f rest ih =>
      calc lookupEntry (upsert rest (upsertOne f idx)) i
          = lookupEntry (upsertOne f idx) i :=
            ih (upsertOne f idx) (fun e he => h e (List.mem_cons_of_mem f he))
        _ = lookupEntry idx i :=
            lookupEntry_upsertOne_other f idx i (h f (List.mem_cons_self f rest))

/-- After a batch upsert of entries with distinct chunk IDs, each one is
stored under its own ID. -/
theorem lookupEntry_upsert_mem (es : List IndexEntry) (idx : List IndexEntry)
    (e : IndexEntry) (hnd : (es.map (fun x => x.id)).Nodup) (he : e ∈ es) :
    lookupEntry (upsert es idx) e.id = some e := by
  induction es generalizing idx with
  | nil => exact absurd he (List.not_mem_nil e)
  | cons f rest ih =>
      have hnd' : (∀ x ∈ rest, ¬ x.id = f.id) ∧
          (rest.map (fun x => x.id)).Nodup := by simpa using hnd
      rcases List.mem_cons.mp he with h | h
      · subst h
        have hni : ∀ x ∈ rest, e.id ≠ x.id := by
          intro x hx hEq
          exact hnd'.1 x hx hEq.symm
        calc lookupEntry (upsert rest (upsertOne e idx)) e.id
            = lookupEntry (upsertOne e idx) e.id :=
              lookupEntry_upsert_not_mem rest _ e.id hni
          _ = some e := lookupEntry_upsertOne_same e idx
      · exact ih (upsertOne f idx) hnd'.2 h

/-- Upserting an entry already stored unchanged leaves the index equal. -/
theorem upsertOne_eq_self (e : IndexEntry) (idx : List IndexEntry)
    (hnd : (idx.map (fun x => x.id)).Nodup)
    (hl : lookupEntry idx e.id = some e) : upsertOne e idx = idx := by
  have hmem : e ∈ idx := List.mem_of_find?_eq_some hl
  have hany : idx.any (fun x => x.id = e.id) = true :=
    List.any_eq_true.mpr ⟨e, hmem, by simp⟩
  rw [upsertOne, if_pos hany]
  have hrep : ∀ x ∈ idx, (if x.id = e.id then e else x) = x := by
    intro x hx
    by_cases hxe : x.id = e.id
    · rw [if_pos hxe]
      exact (List.inj_on_of_nodup_map hnd hx hmem hxe).symm
    · rw [if_neg hxe]
  calc idx.map (fun x => if x.id = e.id then e else x)
      = idx.map id := List.map_congr_left (by simpa using hrep)
    _ = idx := List.map_id idx

/-- A batch upsert of entries already stored unchanged is the identity. -/
theorem upsert_eq_self (es : List IndexEntry) (idx : List IndexEntry)
    (hnd : (idx.map (fun x => x.id)).Nodup)
    (h : ∀ e ∈ es, lookupEntry idx e.id = some e) : upsert es idx = idx := by
  induction es with
  | nil => rfl
  | cons f rest ih =>
      have h1 : upsertOne f idx = idx :=
        upsertOne_eq_self f idx hnd (h f (List.mem_cons_self f rest))
      show upsert rest (upsertOne f idx) = idx
      rw [h1]
      exact ih (fun e he => h e (List.mem_cons_of_mem f he))

/-- Batch upserts preserve distinctness of chunk IDs. -/
theorem upsert_nodup (es : List IndexEntry) (idx : List IndexEntry)
    (h : (idx.map (fun x => x.id)).Nodup) :
    ((upsert es idx).map (fun x => x.id)).Nodup := by
  induction es generalizing idx with
  | nil => exact h
  | cons f rest ih => exact ih (upsertOne f idx) (upsertOne_nodup f idx h)

/-- `upsert` is idempotent on batches with distinct chunk IDs. -/
theorem upsert_idem (es : List IndexEntry) (idx : List IndexEntry)
    (hes : (es.map (fun x => x.id)).Nodup)
    (hidx : (idx.map (fun x => x.id)).Nodup) :
    upsert es (upsert es idx) = upsert es idx :=
  upsert_eq_self es _ (upsert_nodup es idx hidx)
    (fun e he => lookupEntry_upsert_mem es idx e hes he)

/-- Setting a fingerprint makes the path look up to it. -/
theorem lookupFp_setFp_same (tr : List (String × (String × ℕ))) (p : String)
    (fp : String × ℕ) : lookupFp (setFp tr p fp) p = some fp := by
  rw [lookupFp, setFp, List.find?_cons_of_pos _ (by simp)]
  rfl

/-- A keyed find is unchanged by filtering with a predicate that keeps
every row of that key. -/
theorem find?_filter_keep {α β : Type} [DecidableEq α] (l : List (α × β))
    (p : α) (keep : α × β → Bool) (hk : ∀ x : α × β, x.1 = p → keep x = true) :
    List.find? (fun x => x.1 = p) (l.filter keep) =
      List.find? (fun x => x.1 = p) l := by
  induction l with
  | nil => rfl
  | cons x t ih =>
      cases hkx : keep x with
      | true =>
          rw [List.filter_cons_of_pos hkx]
          by_cases hxp : x.1 = p
          · rw [List.find?_cons_of_pos _ (by simp [hxp]),
              List.find?_cons_of_pos _ (by simp [hxp])]
          · rw [List.find?_cons_of_neg _ (by simp [hxp]),
              List.find?_cons_of_neg _ (by simp [hxp]), ih]
      | false =>
          have hxp : ¬ x.1 = p := fun h => by rw [hk x h] at hkx; cases hkx
          rw [List.filter_cons_of_neg (by simp [hkx]),
            List.find?_cons_of_neg _ (by simp [hxp]), ih]

/-- Setting one path's fingerprint leaves every other path's lookup
unchanged. -/
theorem lookupFp_setFp_other (tr : List (String × (String × ℕ))) (p q : String)
    (fp : String × ℕ) (h : q ≠ p) :
    lookupFp (setFp tr p fp) q = lookupFp tr q := by
  rw [lookupFp, setFp, List.find?_cons_of_neg _ (by simp [Ne.symm h])]
  rw [lookupFp]
  exact congrArg (Option.map Prod.snd)
    (find?_filter_keep tr q _ (fun x hx => by simp [hx, h]))

/-- Any property of tracked paths that holds before a fold of `passStep`
calls and holds for every processed document holds after. -/
theorem tracker_foldl_prop (cfg : ChunkConfig) (embed : String → List ℚ)
    (Q : String → Prop) (ds : List Doc) (s : RagState)
    (hs : ∀ x ∈ s.tracker, Q x.1) (hd : ∀ d ∈ ds, Q d.path) :
    ∀ x ∈ (ds.foldl (passStep cfg embed) s).tracker, Q x.1 := by
  induction ds generalizing s with
  | nil => exact hs
  | cons d rest ih =>
      apply ih (passStep cfg embed s d)
      · intro x hx
        simp only [passStep, setFp] at hx
        rcases List.mem_cons.mp hx with h | h
        · rw [h]; exact hd d (List.mem_cons_self d rest)
        · exact hs x (List.mem_of_mem_filter h)
      · intro d' hd'; exact hd d' (List.mem_cons_of_mem d hd')

/-- A fold of `passStep` calls over documents of other paths leaves a
path's fingerprint lookup unchanged. -/
theorem lookupFp_foldl_not_mem (cfg : ChunkConfig) (embed : String → List ℚ)
    (ds : List Doc) (s : RagState) (p : String)
    (h : ∀ d ∈ ds, p ≠ d.path) :
    lookupFp ((ds.foldl (passStep cfg embed) s).tracker) p = lookupFp s.tracker p := by
  induction ds generalizing s with
  | nil => rfl
  | cons d rest ih =>
      calc lookupFp ((rest.foldl (passStep cfg embed) (passStep cfg embed s d)).tracker) p
          = lookupFp (passStep cfg embed s d).tracker p :=
            ih (passStep cfg embed s d) (fun d' hd' => h d' (List.mem_cons_of_mem d hd'))
        _ = lookupFp s.tracker p :=
            lookupFp_setFp_other s.tracker d.path p (fingerprint d)
              (h d (List.mem_cons_self d rest))

/-- After a fold of `passStep` calls over documents with distinct paths,
each processed document's path looks up to its fresh fingerprint. -/
theorem lookupFp_foldl_mem (cfg : ChunkConfig) (embed : String → List ℚ)
    (ds : List Doc) (s : RagState) (d : Doc)
    (hnd : (ds.map Doc.path).Nodup) (hd : d ∈ ds) :
    lookupFp ((ds.foldl (passStep cfg embed) s).tracker) d.path =
      some (fingerprint d) := by
  induction ds generalizing s with
  | nil => exact absurd hd (List.not_mem_nil d)
  | cons g rest ih =>
      have hnd' : (∀ x ∈ rest, ¬ x.path = g.path) ∧
          (rest.map Doc.path).Nodup := by simpa using hnd
      rcases List.mem_cons.mp hd with h | h
      · subst h
        have hnp : ∀ d' ∈ rest, d.path ≠ d'.path :=
          fun d' hd' hEq => hnd'.1 d' hd' hEq.symm
        rw [show (d :: rest).foldl (passStep cfg embed) s =
          rest.foldl (passStep cfg embed) (passStep cfg embed s d) from rfl]
        rw [lookupFp_foldl_not_mem cfg embed rest _ d.path hnp]
        exact lookupFp_setFp_same s.tracker d.path (fingerprint d)
      · exact ih (passStep cfg embed s g) hnd'.2 h

/-- A fold of `passStep` calls preserves distinctness of index chunk IDs. -/
theorem index_foldl_nodup (cfg : ChunkConfig) (embed : String → List ℚ)
    (ds : List Doc) (s : RagState)
    (h : (s.index.map (fun e => e.id)).Nodup) :
    (((ds.foldl (passStep cfg embed) s).index).map (fun e => e.id)).Nodup := by
  induction ds generalizing s with
  | nil => exact h
  | cons d rest ih =>
      apply ih (passStep cfg embed s d)
      show ((upsert (entriesOf cfg embed d) (deleteByDoc d.path s.index)).map
        (fun e => e.id)).Nodup
      apply upsert_nodup
      exact List.Nodup.sublist (List.Sublist.map _ (List.filter_sublist _)) h

/-- Every tracker row after a pass belongs to a currently present
document. -/
theorem ingestPass_tracker_paths (cfg : ChunkConfig) (embed : String → List ℚ)
    (docs : List Doc) (st : RagState) :
    ∀ x ∈ (ingestPass cfg embed docs st).tracker,
      docs.any (fun d => d.path = x.1) = true := by
  rw [ingestPass]
  apply tracker_foldl_prop cfg embed (fun p => docs.any (fun d => d.path = p) = true)
  · intro x hx
    have hx' : x ∈ st.tracker.filter (fun e => docs.any (fun d => d.path = e.1)) := hx
    exact @List.of_mem_filter _ (fun e => docs.any (fun d => d.path = e.1)) x
      st.tracker hx'
  · intro d hd
    have hd2 : d ∈ docs := List.mem_of_mem_filter hd
    exact List.any_eq_true.mpr ⟨d, hd2, by simp⟩

/-- After a pass, every present document's path looks up to its current
fingerprint. -/
theorem ingestPass_lookupFp (cfg : ChunkConfig) (embed : String → List ℚ)
    (docs : List Doc) (st : RagState) (hnd : (docs.map Doc.path).Nodup) :
    ∀ d ∈ docs, lookupFp (ingestPass cfg embed docs st).tracker d.path =
      some (fingerprint d) := by
  intro d hd
  rw [ingestPass]
  by_cases hch : d ∈ changedDocs docs st.tracker
  · exact lookupFp_foldl_mem cfg embed _ _ d
      (List.Nodup.sublist (List.Sublist.map _ (List.filter_sublist _)) hnd) hch
  · have hdCh : lookupFp st.tracker d.path = some (fingerprint d) := by
      by_contra hne
      exact hch (List.mem_filter.mpr ⟨hd, by simpa using hne⟩)
    have hnp : ∀ c ∈ changedDocs docs st.tracker, d.path ≠ c.path := by
      intro c hc hEq
      have hcd : c ∈ docs := List.mem_of_mem_filter hc
      have hdc : d = c := List.inj_on_of_nodup_map hnd hd hcd hEq
      rw [← hdc] at hc
      exact hch hc
    rw [lookupFp_foldl_not_mem cfg embed _ _ d.path hnp]
    have hk : ∀ x : String × (String × ℕ), x.1 = d.path →
        (docs.any (fun d' => d'.path = x.1)) = true := by
      intro x hx
      exact List.any_eq_true.mpr ⟨d, hd, by simp [hx]⟩
    calc lookupFp (keepTracker docs st.tracker) d.path
        = lookupFp st.tracker d.path := by
          rw [keepTracker, lookupFp, lookupFp, find?_filter_keep _ _ _ hk]
      _ = some (fingerprint d) := hdCh

/-- Claim C4: running an ingestion pass twice over an unchanged document
set is idempotent — the second pass leaves tracker and index exactly as the
first left them, so there is no chunk-ID churn; the index never acquires
duplicate chunk IDs; and `upsert` itself is idempotent on batches with
distinct chunk IDs. -/
theorem ingestion_idempotent (cfg : ChunkConfig) (embed : String → List ℚ)
    (docs : List Doc) (st : RagState)
    (hdocs : (docs.map Doc.path).Nodup)
    (hidx : (st.index.map (fun e => e.id)).Nodup) :
    ingestPass cfg embed docs (ingestPass cfg embed docs st) =
      ingestPass cfg embed docs st ∧
    ((ingestPass cfg embed docs st).index.map (fun e => e.id)).Nodup ∧
    (∀ es idx2, ((es.map (fun e : IndexEntry => e.id)).Nodup) →
      ((idx2.map (fun e : IndexEntry => e.id)).Nodup) →
      upsert es (upsert es idx2) = upsert es idx2) := by
  have h19 := ingestPass_tracker_paths cfg embed docs st
  have h20 := ingestPass_lookupFp cfg embed docs st hdocs
  set st1 := ingestPass cfg embed docs st with hst1
  refine ⟨?_, ?_, fun es idx2 a b => upsert_idem es idx2 a b⟩
  · have hchanged : changedDocs docs st1.tracker = [] := by
      rw [changedDocs]
      apply List.filter_eq_nil_iff.mpr
      intro d hd
      simp [h20 d hd]
    have hkeep : keepTracker docs st1.tracker = st1.tracker := by
      rw [keepTracker]
      apply List.filter_eq_self.mpr
      intro a ha
      exact h19 a ha
    have hrem : removedPaths docs st1.tracker = [] := by
      rw [removedPaths]
      apply List.filter_eq_nil_iff.mpr
      intro p hp
      obtain ⟨x, hx, hxp⟩ := List.mem_map.mp hp
      have hx19 := h19 x hx
      rw [← hxp]
      simp [hx19]
    conv_lhs => rw [ingestPass]
    rw [hchanged, hkeep, hrem]
    simp only [List.foldl_nil]
    have hfil : st1.index.filter
        (fun en => ¬ (([] : List String)).contains en.id.1) = st1.index := by
      apply List.filter_eq_self.mpr
      intro a ha
      simp
    rw [hfil]
  · rw [hst1, ingestPass]
    apply index_foldl_nodup
    show ((st.index.filter _).map (fun e => e.id)).Nodup
    exact List.Nodup.sublist (List.Sublist.map _ (List.filter_sublist _)) hidx

/-- Witness for C4: one markdown document ingested into the empty state —
a second pass changes nothing and the chunk IDs stay distinct. -/
theorem ingestion_idempotent_witness :
    ingestPass ⟨4, 1⟩ (fun s => [(s.length : ℚ)]) [⟨"a.md", "hello", 1, "md"⟩]
        (ingestPass ⟨4, 1⟩ (fun s => [(s.length : ℚ)]) [⟨"a.md", "hello", 1, "md"⟩]
          ⟨[], []⟩) =
      ingestPass ⟨4, 1⟩ (fun s => [(s.length : ℚ)]) [⟨"a.md", "hello", 1, "md"⟩]
        ⟨[], []⟩ ∧
    ((ingestPass ⟨4, 1⟩ (fun s => [(s.length : ℚ)]) [⟨"a.md", "hello", 1, "md"⟩]
        ⟨[], []⟩).index.map (fun e => e.id)).Nodup :=
  ⟨(ingestion_idempotent ⟨4, 1⟩ (fun s => [(s.length : ℚ)])
      [⟨"a.md", "hello", 1, "md"⟩] ⟨[], []⟩ (by decide) (by decide)).1,
   (ingestion_idempotent ⟨4, 1⟩ (fun s => [(s.length : ℚ)])
      [⟨"a.md", "hello", 1, "md"⟩] ⟨[], []⟩ (by decide) (by decide)).2.1⟩

/-- A document produces one index entry per chunk. -/
theorem entriesOf_length (cfg : ChunkConfig) (embed : String → List ℚ) (d : Doc) :
    (entriesOf cfg embed d).length = (split cfg d.content).length := by
  simp [entriesOf]

/-- Every entry of a document carries that document's path in its chunk
ID. -/
theorem entriesOf_id_fst (cfg : ChunkConfig) (embed : String → List ℚ) (d : Doc) :
    ∀ x ∈ entriesOf cfg embed d, x.id.1 = d.path := by
  intro x hx
  obtain ⟨it, _, hit⟩ := List.mem_map.mp hx
  rw [← hit]

/-- Every entry of a document carries that document's file type. -/
theorem entriesOf_fileType (cfg : ChunkConfig) (embed : String → List ℚ) (d : Doc) :
    ∀ x ∈ entriesOf cfg embed d, x.fileType = d.fileType := by
  intro x hx
  obtain ⟨it, _, hit⟩ := List.mem_map.mp hx
  rw [← hit]

/-- The chunk IDs produced for one document are pairwise distinct. -/
theorem entriesOf_ids_nodup (cfg : ChunkConfig) (embed : String → List ℚ) (d : Doc) :
    ((entriesOf cfg embed d).map (fun e => e.id)).Nodup := by
  rw [entriesOf, List.map_map]
  rw [show ((fun e : IndexEntry => e.id) ∘ (fun it : ℕ × String =>
      ({ id := (d.path, it.1), vector := embed it.2, text := it.2,
         filename := d.path, fileType := d.fileType } : IndexEntry))) =
    ((fun i : ℕ => ((d.path, i) : ChunkId)) ∘ Prod.fst) from rfl]
  rw [← List.map_map, List.enum_map_fst]
  exact (List.nodup_range _).map (fun a b h => by simpa using congrArg Prod.snd h)

/-- The document paths of one document's entries, as a list. -/
theorem entriesOf_map_fst (cfg : ChunkConfig) (embed : String → List ℚ) (d : Doc) :
    (entriesOf cfg embed d).map (fun e => e.id.1) =
      List.replicate (split cfg d.content).length d.path := by
  apply List.eq_replicate_iff.mpr
  constructor
  · simp [entriesOf]
  · intro b hb
    obtain ⟨x, hx, hxb⟩ := List.mem_map.mp hb
    rw [← hxb]
    exact entriesOf_id_fst cfg embed d x hx

/-- The file types of one document's entries, as a list. -/
theorem entriesOf_map_type (cfg : ChunkConfig) (embed : String → List ℚ) (d : Doc) :
    (entriesOf cfg embed d).map (fun e => e.fileType) =
      List.replicate (split cfg d.content).length d.fileType := by
  apply List.eq_replicate_iff.mpr
  constructor
  · simp [entriesOf]
  · intro b hb
    obtain ⟨x, hx, hxb⟩ := List.mem_map.mp hb
    rw [← hxb]
    exact entriesOf_fileType cfg embed d x hx

/-- Deduplicating a nonempty constant list leaves the one element. -/
theorem dedup_replicate (n : ℕ) (a : String) (h : n ≠ 0) :
    (List.replicate n a).dedup = [a] := by
  induction n with
  | zero => exact absurd rfl h
  | succ m ih =>
      cases hm : m with
      | zero => simp
      | succ k =>
          rw [List.replicate_succ, List.dedup_cons_of_mem
            (List.mem_replicate.mpr ⟨by omega, rfl⟩)]
          rw [← hm]
          exact ih (by omega)

/-- Upserting a batch of entirely fresh, pairwise distinct chunk IDs is an
append. -/
theorem upsert_append_fresh (es : List IndexEntry) (idx : List IndexEntry)
    (hfresh : ∀ e ∈ es, ∀ x ∈ idx, ¬ x.id = e.id)
    (hnd : (es.map (fun e => e.id)).Nodup) :
    upsert es idx = idx ++ es := by
  induction es generalizing idx with
  | nil => simp [upsert]
  | cons f rest ih =>
      have hnd' : (∀ x ∈ rest, ¬ x.id = f.id) ∧
          (rest.map (fun e => e.id)).Nodup := by simpa using hnd
      have hany : ¬ idx.any (fun x => x.id = f.id) = true := by
        intro hc
        obtain ⟨x, hx, hxf⟩ := List.any_eq_true.mp hc
        exact hfresh f (List.mem_cons_self f rest) x hx (by simpa using hxf)
      have h1 : upsertOne f idx = idx ++ [f] := by rw [upsertOne, if_neg hany]
      show upsert rest (upsertOne f idx) = idx ++ f :: rest
      rw [h1, ih (idx ++ [f]) ?_ hnd'.2]
      · simp
      · intro e he x hx
        rcases List.mem_append.mp hx with h | h
        · exact hfresh e (List.mem_cons_of_mem f he) x h
        · rw [List.mem_singleton.mp h]
          intro hEq
          exact hnd'.1 e he hEq.symm

/-- Processing documents whose entries are all fresh with respect to the
running index appends each document's entries in order. -/
theorem foldl_index_fresh (cfg : ChunkConfig) (embed : String → List ℚ)
    (ds : List Doc) (s : RagState)
    (hnd : (ds.map Doc.path).Nodup)
    (hdisj : ∀ d ∈ ds, ∀ x ∈ s.index, x.id.1 ≠ d.path) :
    (ds.foldl (passStep cfg embed) s).index =
      s.index ++ (ds.map (entriesOf cfg embed)).flatten := by
  induction ds generalizing s with
  | nil => simp
  | cons d rest ih =>
      have hnd' : (∀ x ∈ rest, ¬ x.path = d.path) ∧ (rest.map Doc.path).Nodup := by
        simpa using hnd
      have hdel : deleteByDoc d.path s.index = s.index := by
        apply List.filter_eq_self.mpr
        intro x hx
        simpa using hdisj d (List.mem_cons_self d rest) x hx
      have hstep : (passStep cfg embed s d).index =
          s.index ++ entriesOf cfg embed d := by
        show upsert (entriesOf cfg embed d) (deleteByDoc d.path s.index) = _
        rw [hdel]
        apply upsert_append_fresh
        · intro e he x hx hEq
          have h1 : x.id.1 = e.id.1 := congrArg Prod.fst hEq
          rw [entriesOf_id_fst cfg embed d e he] at h1
          exact hdisj d (List.mem_cons_self d rest) x hx h1
        · exact entriesOf_ids_nodup cfg embed d
      have hdisj' : ∀ d' ∈ rest, ∀ x ∈ (passStep cfg embed s d).index,
          x.id.1 ≠ d'.path := by
        intro d' hd' x hx
        rw [hstep] at hx
        rcases List.mem_append.mp hx with h | h
        · exact hdisj d' (List.mem_cons_of_mem d hd') x h
        · rw [entriesOf_id_fst cfg embed d x h]
          intro hEq
          exact hnd'.1 d' hd' hEq.symm
      calc ((d :: rest).foldl (passStep cfg embed) s).index
          = (passStep cfg embed s d).index ++
              (rest.map (entriesOf cfg embed)).flatten :=
            ih (passStep cfg embed s d) hnd'.2 hdisj'
        _ = s.index ++ (entriesOf cfg embed d ++
              (rest.map (entriesOf cfg embed)).flatten) := by
            rw [hstep, List.append_assoc]
        _ = s.index ++ ((d :: rest).map (entriesOf cfg embed)).flatten := by simp

/-- Starting from the empty state, a pass processes every document. -/
theorem ingestPass_empty_state (cfg : ChunkConfig) (embed : String → List ℚ)
    (docs : List Doc) :
    ingestPass cfg embed docs ⟨[], []⟩ = docs.foldl (passStep cfg embed) ⟨[], []⟩ := by
  have hch : changedDocs docs ([] : List (String × (String × ℕ))) = docs := by
    apply List.filter_eq_self.mpr
    intro d hd
    simp [lookupFp]
  show (changedDocs docs []).foldl (passStep cfg embed) ⟨[], []⟩ =
    docs.foldl (passStep cfg embed) ⟨[], []⟩
  rw [hch]

/-- Claim C7: the stats report carries the chunk count, the distinct
source-document count, the per-file-type counts and the embedding model
identifier; after ingesting three distinct markdown files of known
nonempty content into an empty state, it reports 3 distinct source
documents and a chunk count equal to the chunker's deterministic output
for those contents and that configuration. -/
theorem getStats_after_three_markdown (cfg : ChunkConfig)
    (embed : String → List ℚ) (conf : StatsConfig) (d1 d2 d3 : Doc)
    (ht1 : d1.fileType = "md") (ht2 : d2.fileType = "md")
    (ht3 : d3.fileType = "md")
    (hp12 : d1.path ≠ d2.path) (hp13 : d1.path ≠ d3.path)
    (hp23 : d2.path ≠ d3.path)
    (hn1 : split cfg d1.content ≠ []) (hn2 : split cfg d2.content ≠ [])
    (hn3 : split cfg d3.content ≠ []) :
    getStats conf (ingestPass cfg embed [d1, d2, d3] ⟨[], []⟩).index =
      { total_chunks := (split cfg d1.content).length +
          (split cfg d2.content).length + (split cfg d3.content).length,
        unique_files := 3,
        file_types := [("md", (split cfg d1.content).length +
          (split cfg d2.content).length + (split cfg d3.content).length)],
        embedding_model := conf.embeddingModel,
        vector_db_path := conf.dbPath } := by
  have hm1 : (split cfg d1.content).length ≠ 0 :=
    fun h => hn1 (List.length_eq_zero.mp h)
  have hm2 : (split cfg d2.content).length ≠ 0 :=
    fun h => hn2 (List.length_eq_zero.mp h)
  have hm3 : (split cfg d3.content).length ≠ 0 :=
    fun h => hn3 (List.length_eq_zero.mp h)
  have hnd : ([d1, d2, d3].map Doc.path).Nodup := by
    simp [hp12, hp13, hp23]
  have hix : (ingestPass cfg embed [d1, d2, d3] ⟨[], []⟩).index =
      entriesOf cfg embed d1 ++ (entriesOf cfg embed d2 ++ entriesOf cfg embed d3) := by
    rw [ingestPass_empty_state,
      foldl_index_fresh cfg embed [d1, d2, d3] ⟨[], []⟩ hnd
        (fun d _ x hx => absurd hx (List.not_mem_nil x))]
    simp
  rw [hix]
  have hfilmd : (entriesOf cfg embed d1 ++
      (entriesOf cfg embed d2 ++ entriesOf cfg embed d3)).filter
        (fun e => e.fileType = "md") =
      entriesOf cfg embed d1 ++ (entriesOf cfg embed d2 ++ entriesOf cfg embed d3) := by
    apply List.filter_eq_self.mpr
    intro x hx
    rcases List.mem_append.mp hx with h | h
    · simp [entriesOf_fileType cfg embed d1 x h, ht1]
    · rcases List.mem_append.mp h with h2 | h2
      · simp [entriesOf_fileType cfg embed d2 x h2, ht2]
      · simp [entriesOf_fileType cfg embed d3 x h2, ht3]
  simp only [getStats]
  rw [SystemStats.mk.injEq]
  refine ⟨?_, ?_, ?_, rfl, rfl⟩
  · simp only [List.length_append, entriesOf_length]
    omega
  · rw [← List.card_toFinset, List.map_append, List.map_append,
      entriesOf_map_fst, entriesOf_map_fst, entriesOf_map_fst,
      List.toFinset_append, List.toFinset_append,
      List.toFinset_replicate_of_ne_zero hm1,
      List.toFinset_replicate_of_ne_zero hm2,
      List.toFinset_replicate_of_ne_zero hm3]
    have hset : ({d1.path} ∪ ({d2.path} ∪ {d3.path}) : Finset String) =
        {d1.path, d2.path, d3.path} := by
      ext x; simp
    rw [hset, Finset.card_insert_of_not_mem (by simp [hp12, hp13]),
      Finset.card_insert_of_not_mem (by simp [hp23])]
    simp
  · have hmt : (entriesOf cfg embed d1 ++
        (entriesOf cfg embed d2 ++ entriesOf cfg embed d3)).map
          (fun e => e.fileType) =
        List.replicate ((split cfg d1.content).length +
          ((split cfg d2.content).length + (split cfg d3.content).length)) "md" := by
      rw [List.map_append, List.map_append,
        entriesOf_map_type, entriesOf_map_type, entriesOf_map_type,
        ht1, ht2, ht3, ← List.replicate_add, ← List.replicate_add]
    rw [hmt, dedup_replicate _ _ (by omega)]
    rw [show (["md"].map (fun t => (t, ((entriesOf cfg embed d1 ++
        (entriesOf cfg embed d2 ++ entriesOf cfg embed d3)).filter
          (fun e => e.fileType = t)).length))) =
      [("md", ((entriesOf cfg embed d1 ++ (entriesOf cfg embed d2 ++
        entriesOf cfg embed d3)).filter (fun e => e.fileType = "md")).length)]
      from rfl]
    rw [hfilmd]
    have hlen3 : (entriesOf cfg embed d1 ++ (entriesOf cfg embed d2 ++
        entriesOf cfg embed d3)).length = (split cfg d1.content).length +
          (split cfg d2.content).length + (split cfg d3.content).length := by
      simp only [List.length_append, entriesOf_length]
      omega
    rw [hlen3]

/-- Witness for C7: three tiny markdown files ingested with chunk size 4
and overlap 1. -/
theorem getStats_after_three_markdown_witness :
    getStats ⟨"mini", "db"⟩ (ingestPass ⟨4, 1⟩ (fun s => [(s.length : ℚ)])
        [⟨"a.md", "hello", 1, "md"⟩, ⟨"b.md", "hi", 2, "md"⟩,
         ⟨"c.md", "worlds!", 3, "md"⟩] ⟨[], []⟩).index =
      { total_chunks := (split ⟨4, 1⟩ "hello").length + (split ⟨4, 1⟩ "hi").length +
          (split ⟨4, 1⟩ "worlds!").length,
        unique_files := 3,
        file_types := [("md", (split ⟨4, 1⟩ "hello").length +
          (split ⟨4, 1⟩ "hi").length + (split ⟨4, 1⟩ "worlds!").length)],
        embedding_model := "mini",
        vector_db_path := "db" } :=
  getStats_after_three_markdown ⟨4, 1⟩ (fun s => [(s.length : ℚ)]) ⟨"mini", "db"⟩
    ⟨"a.md", "hello", 1, "md"⟩ ⟨"b.md", "hi", 2, "md"⟩ ⟨"c.md", "worlds!", 3, "md"⟩
    rfl rfl rfl (by decide) (by decide) (by decide)
    (by decide) (by decide) (by decide)

end YakHole
